import Mathlib

/-
Verification development for the git-compatible metadata layer of this
repository: the INI-like configuration store (parser, writer, ordered
multi-map, include resolver, file lock) and the in-memory N-way tree merge
engine that builds staged index entries from up to three tree snapshots.

The Python implementation modules are not shipped in this source tree (only
their tests are), so every operation below is modelled from the design
document, with the test suite as the behavioural cross-check.  Machine
integers are modelled as Nat, byte strings as List Nat, and fallible
operations return Except values.
-/

set_option autoImplicit false

namespace GitMeta

/-! ## Tree entry model and N-way tree merge engine -/

/-- Modelled from the spec: one entry of a flattened tree object, the
`(name, mode, content-hash)` value type of section 3.  The content hash is
abstracted as a Nat; `name` is the full path of the entry in the flattened,
depth-first listing that the merge engine walks. -/
structure TreeEntry where
  binsha : Nat
  mode : Nat
  name : String
deriving DecidableEq, Repr

/-- Modelled from the spec: a Merge Result Entry `(path, hash, mode, stage)`
with stage 0 meaning unconflicted and stages 1/2/3 the base/ours/theirs
slots of an unresolved conflict. -/
structure IndexEntry where
  path : String
  binsha : Nat
  mode : Nat
  stage : Nat
deriving DecidableEq, Repr

/-- Modelled from the spec: the value error raised by the merge engine when
more than three trees are supplied. -/
inductive MergeError where
  | tooManyTrees
deriving DecidableEq, Repr

/-- The candidate an input tree offers for a path: absent, or a
(content-hash, mode) pair.  Absent is semantically distinct from present. -/
def candOf (es : List TreeEntry) (p : String) : Option (Nat × Nat) :=
  (es.find? (fun e => e.name = p)).map (fun e => (e.binsha, e.mode))

/-- All paths named by a flattened tree. -/
def treePaths (es : List TreeEntry) : List String :=
  es.map (fun e => e.name)

/-- Byte-wise lexicographic comparison of paths, used for the single
path-lexicographic pass of the merge engine. -/
def strLe (a b : String) : Bool :=
  decide (a ≤ b)

/-- Insert a path into an already sorted list of paths. -/
def insertSorted (p : String) : List String → List String
  | [] => [p]
  | q :: qs => if strLe p q then p :: q :: qs else q :: insertSorted p qs

/-- Sort paths lexicographically (insertion sort). -/
def sortPaths (l : List String) : List String :=
  l.foldr insertSorted []

/-- The merged, deduplicated, sorted union of the paths of all input trees:
the visit order of the lock-step walk. -/
def mergedPaths (trees : List (List TreeEntry)) : List String :=
  sortPaths ((trees.map treePaths).flatten.dedup)

/-- Emit one index entry at the given stage for a present candidate,
nothing for an absent one (deletion propagates by omission). -/
def stageEntry (p : String) (st : Nat) : Option (Nat × Nat) → List IndexEntry
  | some v => [⟨p, v.1, v.2, st⟩]
  | none => []

/-- Modelled from the spec: resolution of a single path in a three-way
merge, the first input being the base, the second ours, the third theirs.
Identical on ours and theirs resolves to stage 0; unchanged-from-base on
one side with the other side changed resolves to the changed side at
stage 0 (a deletion resolves by omission); otherwise a conflict is emitted
with one entry per side that has a value, the base at stage 1 (when present
it necessarily still differs from both), ours at stage 2, theirs at
stage 3. -/
def resolve3 (p : String) (b o t : Option (Nat × Nat)) : List IndexEntry :=
  if o = t then stageEntry p 0 o
  else if o = b then stageEntry p 0 t
  else if t = b then stageEntry p 0 o
  else stageEntry p 1 b ++ stageEntry p 2 o ++ stageEntry p 3 t

/-- Modelled from the spec: resolution of a single path in a two-way merge.
There is no base, so agreement resolves to stage 0 and any divergence
produces one entry per differing side at stages 2 and 3, never stage 1. -/
def resolve2 (p : String) (o t : Option (Nat × Nat)) : List IndexEntry :=
  if o = t then stageEntry p 0 o
  else stageEntry p 2 o ++ stageEntry p 3 t

/-- Lock-step walk of three flattened trees over the sorted union of their
paths. -/
def merge3 (b o t : List TreeEntry) : List IndexEntry :=
  (mergedPaths [b, o, t]).flatMap
    (fun p => resolve3 p (candOf b p) (candOf o p) (candOf t p))

/-- Lock-step walk of two flattened trees over the sorted union of their
paths. -/
def merge2 (o t : List TreeEntry) : List IndexEntry :=
  (mergedPaths [o, t]).flatMap (fun p => resolve2 p (candOf o p) (candOf t p))

/-- A single tree maps to its flattened entries, all at stage 0. -/
def merge1 (es : List TreeEntry) : List IndexEntry :=
  es.map (fun e => ⟨e.name, e.binsha, e.mode, 0⟩)

/-- Modelled from the spec: the tree merge engine.  The object store is
abstracted as a pure function from tree hash to the flattened entry list of
that tree (the recursive descent through subtree objects is folded into
this resolver).  The second component of the result instruments the
object-store lookups actually performed: more than three input trees are
rejected with a value error before any lookup. -/
def aggressive_tree_merge (odb : Nat → List TreeEntry) (tree_shas : List Nat) :
    Except MergeError (List IndexEntry) × List Nat :=
  match tree_shas with
  | [] => (Except.ok [], [])
  | [t] => (Except.ok (merge1 (odb t)), [t])
  | [t1, t2] => (Except.ok (merge2 (odb t1) (odb t2)), [t1, t2])
  | [tb, t1, t2] => (Except.ok (merge3 (odb tb) (odb t1) (odb t2)), [tb, t1, t2])
  | _ => (Except.error MergeError.tooManyTrees, [])

/-- The entry list of a merge result, empty on error. -/
def resultEntries : Except MergeError (List IndexEntry) → List IndexEntry
  | Except.ok es => es
  | Except.error _ => []

/-- The entries a merge result holds for one path. -/
def entriesAt (r : Except MergeError (List IndexEntry)) (p : String) :
    List IndexEntry :=
  (resultEntries r).filter (fun e => e.path = p)

/-! ## stat mode conversion -/

def S_IFREG : Nat := 0o100000

def S_IXUSR : Nat := 0o100

/-- Modelled from the spec: conversion of a filesystem stat mode of a
regular file to the index mode recorded for it, as exercised by the test
suite: the file is stored as a regular file with permissions 755 exactly
when the owner-execute bit is set, and 644 otherwise. -/
def stat_mode_to_index_mode (mode : Nat) : Nat :=
  S_IFREG ||| (if mode &&& S_IXUSR ≠ 0 then 0o755 else 0o644)

/-! ## File lock manager -/

/-- The filesystem as seen by the lock manager: the set of sentinel lock
files currently in existence. -/
structure LockState where
  sentinels : List String
deriving DecidableEq, Repr

/-- The busy error distinguishing an already-held lock from other
failures. -/
inductive LockError where
  | busy
deriving DecidableEq, Repr

/-- The fixed suffix appended to the protected path to form the sentinel
companion file. -/
def lockSuffix : String := ".lock"

def lockPathOf (p : String) : String := p ++ lockSuffix

/-- Modelled from the spec: lock acquisition creates the sentinel file with
exclusive-create semantics; it fails atomically with a busy error when the
sentinel already exists. -/
def acquire_lock (st : LockState) (p : String) : Except LockError LockState :=
  if lockPathOf p ∈ st.sentinels then Except.error LockError.busy
  else Except.ok ⟨lockPathOf p :: st.sentinels⟩

/-- Modelled from the spec: release removes the sentinel held for the
path. -/
def release_lock (st : LockState) (p : String) : LockState :=
  ⟨st.sentinels.erase (lockPathOf p)⟩

/-- Modelled from the spec: opening a writable config parser over a backing
file acquires its file lock immediately; the parser holds it until its
scope ends. -/
def openWritableConfig (st : LockState) (p : String) : Except LockError LockState :=
  acquire_lock st p

/-- Modelled from the spec: the end of a writable parser scope flushes and
releases the lock. -/
def closeWritableConfig (st : LockState) (p : String) : LockState :=
  release_lock st p

/-! ## Ordered multi-map and config document -/

/-- ASCII lower-casing of one character. -/
def lowerChar (c : Char) : Char :=
  if 65 ≤ c.toNat && c.toNat ≤ 90 then Char.ofNat (c.toNat + 32) else c

/-- ASCII lower-casing of a string, the case folding used for key and
section-name comparison. -/
def lowerStr (s : String) : String := String.mk (s.data.map lowerChar)

/-- Case-insensitive equality on option keys, per the ordered multi-map
data model. -/
def keyEq (a b : String) : Bool := lowerStr a == lowerStr b

/-- A section identifier: section name (case-insensitive) and optional
subsection string (case-sensitive). -/
abbrev SectId := String × Option String

/-- Equality on section identifiers: the name compares case-insensitively,
the subsection case-sensitively. -/
def sectEq (a b : SectId) : Bool := lowerStr a.1 == lowerStr b.1 && a.2 == b.2

/-- Modelled from the spec: the ordered multi-map of one section, mapping
each option key to the ordered sequence of its values, preserving key
insertion order. -/
abbrev OMD := List (String × List String)

/-- All values stored for a key, in insertion order. -/
def omdGetAll : OMD → String → List String
  | [], _ => []
  | e :: m, k => if keyEq e.1 k then e.2 else omdGetAll m k

/-- Append one more value for a key, creating the key at the end of the map
when it is new. -/
def omdAdd : OMD → String → String → OMD
  | [], k, v => [(k, [v])]
  | e :: m, k, v =>
    if keyEq e.1 k then (e.1, e.2 ++ [v]) :: m else e :: omdAdd m k v

/-- Modelled from the spec: a config document, a mapping from section
identifier to the ordered multi-map of its options, preserving section
insertion order. -/
abbrev Doc := List (SectId × OMD)

/-- All values the document stores for an option of a section. -/
def docGetAll : Doc → SectId → String → List String
  | [], _, _ => []
  | e :: d, s, k => if sectEq e.1 s then omdGetAll e.2 k else docGetAll d s k

/-- Add one value for an option of a section, creating the section at the
end of the document when it is new. -/
def docAdd : Doc → SectId → String → String → Doc
  | [], s, k, v => [(s, omdAdd [] k v)]
  | e :: d, s, k, v =>
    if sectEq e.1 s then (e.1, omdAdd e.2 k v) :: d else e :: docAdd d s k v

/-- Register a section in the document without giving it any option yet. -/
def docEnsure : Doc → SectId → Doc
  | [], s => [(s, [])]
  | e :: d, s => if sectEq e.1 s then e :: d else e :: docEnsure d s

/-- `add_value` of the mutation API: appends one more value for the option,
keeping all previously stored values. -/
def add_value (d : Doc) (s : SectId) (k v : String) : Doc :=
  docAdd d s k v

/-- `get_values` of the read API: all values of the option in insertion
order. -/
def get_values (d : Doc) (s : SectId) (k : String) : List String :=
  docGetAll d s k

/-- `get_value` (and `get`) of the read API: the last value in insertion
order, none when the option is absent. -/
def get_value (d : Doc) (s : SectId) (k : String) : Option String :=
  (docGetAll d s k).getLast?

/-! ## Parsed config streams and the include resolver -/

/-- The semantic events a parsed config file contributes, in file order: a
section header making a section current, or an option line adding one value
under the current section. -/
inductive CfgEvent where
  | sect : String → Option String → CfgEvent
  | opt : String → String → CfgEvent
deriving DecidableEq, Repr

/-- Fold the events of one parsed file into a document, tracking the
current section; option lines before any section header are ignored. -/
def buildDocFrom : Option SectId → Doc → List CfgEvent → Doc
  | _, d, [] => d
  | _, d, CfgEvent.sect n sub :: evs =>
    buildDocFrom (some (n, sub)) (docEnsure d (n, sub)) evs
  | cur, d, CfgEvent.opt k v :: evs =>
    match cur with
    | some s => buildDocFrom cur (docAdd d s k v) evs
    | none => buildDocFrom cur d evs

/-- Merge the events of one parsed file into a document, starting with no
current section (every file starts outside any section). -/
def buildDoc (d : Doc) (evs : List CfgEvent) : Doc :=
  buildDocFrom none d evs

/-- The values a list of events contributes for one option of one section,
in file order, starting from the given current section. -/
def eventsValues : Option SectId → List CfgEvent → SectId → String → List String
  | _, [], _, _ => []
  | _, CfgEvent.sect n sub :: evs, s, k => eventsValues (some (n, sub)) evs s k
  | cur, CfgEvent.opt k1 v :: evs, s, k =>
    (match cur with
     | some s1 => if sectEq s1 s && keyEq k1 k then [v] else []
     | none => []) ++ eventsValues cur evs s k

/-- The reserved include section. -/
def includeSect : SectId := ("include", none)

/-- Modelled from the spec: the include directives of a parsed file, in
file order: the value of every option found under the reserved include
section names another file to merge in.  The conditional includeIf variant
with its gitdir/onbranch predicates is not exercised by the properties
proved here and is left out of the model. -/
def includesFrom : Option SectId → List CfgEvent → List String
  | _, [] => []
  | _, CfgEvent.sect n sub :: evs => includesFrom (some (n, sub)) evs
  | cur, CfgEvent.opt _ v :: evs =>
    (match cur with
     | some s1 => if sectEq s1 includeSect then [v] else []
     | none => []) ++ includesFrom cur evs

def fileIncludes (evs : List CfgEvent) : List String :=
  includesFrom none evs

/-- Whether a path is absolute (begins with a slash). -/
def isAbsolute (p : String) : Bool :=
  match p.data with
  | '/' :: _ => true
  | _ => false

/-- The directory of a path: everything before its last slash-separated
component. -/
def dirOf (p : String) : String :=
  String.mk (((p.data.reverse.dropWhile (fun c => c ≠ '/')).drop 1).reverse)

/-- Modelled from the spec: normalization of an include target before cycle
detection: an absolute path stands as written, a relative one is resolved
against the directory of the including file. -/
def normalizePath (includer p : String) : String :=
  if isAbsolute p then p else dirOf includer ++ "/" ++ p

/-- The running state of a read: the merged document, the set of normalized
paths already visited (the cycle guard), and the files actually parsed, in
parse order. -/
structure ReadState where
  doc : Doc
  seen : List String
  loaded : List String
deriving DecidableEq, Repr

/-- Modelled from the spec: the read loop of the config parser.  The
filesystem is a pure map from normalized path to the parsed events of the
file there (none when the file does not exist or is unreadable, which is
skipped silently).  The worklist starts with the configured sources in
priority order; after parsing a file its include targets are resolved,
normalized and prepended to the worklist, so included files are considered
before the next source.  A path already visited is never parsed again,
which makes include cycles safe.  The fuel argument only bounds the number
of loop iterations; any fuel at least the number of reachable files yields
the fixed point. -/
def readLoop (fs : String → Option (List CfgEvent)) :
    Nat → ReadState → List String → ReadState
  | _, st, [] => st
  | 0, st, _ :: _ => st
  | Nat.succ fuel, st, p :: ws =>
    if p ∈ st.seen then readLoop fs fuel st ws
    else
      match fs p with
      | none => readLoop fs fuel { st with seen := p :: st.seen } ws
      | some evs =>
        readLoop fs fuel
          { doc := buildDoc st.doc evs
            seen := p :: st.seen
            loaded := st.loaded ++ [p] }
          ((fileIncludes evs).map (normalizePath p) ++ ws)

/-- Read a list of config sources with include merging enabled. -/
def readConfig (fs : String → Option (List CfgEvent)) (sources : List String)
    (fuel : Nat) : ReadState :=
  readLoop fs fuel ⟨[], [], []⟩ sources

/-! ## Config parser / writer with raw line retention -/

/-- Whitespace characters trimmed from non-continuation lines. -/
def isWs (c : Char) : Bool :=
  c == ' ' || c == '\t' || c == '\r' || c == '\n'

/-- Trim leading and trailing whitespace of a line. -/
def trimChars (l : List Char) : List Char :=
  ((l.dropWhile isWs).reverse.dropWhile isWs).reverse

/-- The parse of one physical config line. -/
inductive LineItem where
  | blank
  | comment
  | sectionHeader (name : String) (sub : Option String)
  | optionLine (key : String) (value : Option String) (continued : Bool)
  | malformed
deriving DecidableEq, Repr

/-- Parse the inside of a section header, after the opening bracket:
either a bare name up to the closing bracket, or a name followed by a
quoted subsection string. -/
def classifySection (l : List Char) : LineItem :=
  let name := l.takeWhile (fun c => c ≠ ']' && c ≠ ' ')
  let rest := l.drop name.length
  match rest with
  | ']' :: _ => LineItem.sectionHeader (String.mk name) none
  | ' ' :: '"' :: r =>
    let sub := r.takeWhile (fun c => c ≠ '"')
    match r.drop sub.length with
    | '"' :: ']' :: _ =>
      LineItem.sectionHeader (String.mk name) (some (String.mk sub))
    | _ => LineItem.malformed
  | _ => LineItem.malformed

/-- Classify one physical line of a config file, per the grammar of the
design document: blank lines, comment lines beginning with a hash or a
semicolon, section headers with an optional quoted subsection, and option
lines where a key with no equals sign means an implicit boolean true; a
trailing backslash marks continuation onto the next physical line. -/
def classifyLine (l : List Char) : LineItem :=
  let t := trimChars l
  match t with
  | [] => LineItem.blank
  | '#' :: _ => LineItem.comment
  | ';' :: _ => LineItem.comment
  | '[' :: r => classifySection r
  | _ =>
    let key := t.takeWhile (fun c => c ≠ '=')
    if key.length = t.length then
      LineItem.optionLine (String.mk (trimChars key)) none false
    else
      let v := trimChars (t.drop (key.length + 1))
      LineItem.optionLine (String.mk (trimChars key))
        (some (String.mk v)) (v.getLast? = some '\\')

/-- One physical line as retained by the parser: the raw bytes of the line
(trailing newline included), its parse, and whether a mutation has touched
it since parsing. -/
structure RawLine where
  raw : List Char
  item : LineItem
  dirty : Bool
deriving DecidableEq, Repr

/-- A parsed config file: the ordered raw lines, each holding its parse
alongside the original bytes. -/
structure GitConfigFile where
  lines : List RawLine
deriving DecidableEq, Repr

/-- Split a byte source into physical lines, each line keeping its trailing
newline so that concatenating the lines restores the source exactly. -/
def splitLinesAux (cur : List Char) : List Char → List (List Char)
  | [] => if cur.isEmpty then [] else [cur.reverse]
  | c :: cs =>
    if c = '\n' then (cur.reverse ++ [c]) :: splitLinesAux [] cs
    else splitLinesAux (c :: cur) cs

def splitLines (src : List Char) : List (List Char) :=
  splitLinesAux [] src

/-- Modelled from the spec: parsing a config byte source stores the raw
line buffers alongside the parsed items, so that writing can reproduce
untouched lines byte for byte. -/
def parseConfigBytes (src : List Char) : GitConfigFile :=
  ⟨(splitLines src).map (fun l => ⟨l, classifyLine l, false⟩)⟩

/-- Re-serialization of a parsed item, used only for lines whose value a
mutation changed. -/
def renderItem : LineItem → List Char
  | LineItem.blank => ['\n']
  | LineItem.comment => ['\n']
  | LineItem.sectionHeader n sub =>
    '[' :: n.data ++
      (match sub with
       | some s => ' ' :: '"' :: s.data ++ ['"']
       | none => []) ++ [']', '\n']
  | LineItem.optionLine k v _ =>
    '\t' :: k.data ++
      (match v with
       | some s => ' ' :: '=' :: ' ' :: s.data
       | none => []) ++ ['\n']
  | LineItem.malformed => ['\n']

/-- Modelled from the spec: the writer emits the retained raw bytes of
every line no mutation touched, and re-serializes only dirty lines. -/
def writeConfigBytes (f : GitConfigFile) : List Char :=
  (f.lines.map (fun l => if l.dirty then renderItem l.item else l.raw)).flatten

/-! ## Tree object byte parsing with surrogate-escape name decoding -/

/-- The surrogate-escape placeholder for one undecodable byte. -/
def sesc (b : Nat) : Nat := 0xDC00 + b

/-- A UTF-8 continuation byte. -/
def isCont (b : Nat) : Bool := 0x80 ≤ b && b ≤ 0xBF

/-- Admissible first continuation byte of a three-byte sequence, excluding
overlong encodings and surrogate code points. -/
def cont3ok (b c : Nat) : Bool :=
  if b = 0xE0 then 0xA0 ≤ c && c ≤ 0xBF
  else if b = 0xED then 0x80 ≤ c && c ≤ 0x9F
  else isCont c

/-- Admissible first continuation byte of a four-byte sequence, excluding
overlong encodings and code points beyond the Unicode range. -/
def cont4ok (b c : Nat) : Bool :=
  if b = 0xF0 then 0x90 ≤ c && c ≤ 0xBF
  else if b = 0xF4 then 0x80 ≤ c && c ≤ 0x8F
  else isCont c

/-- Modelled from the spec: UTF-8 decoding of an entry name with the
surrogate-escape error handler: every byte that cannot start a valid
sequence is replaced by the code point 0xDC00 plus the byte, and decoding
never fails. -/
def utf8DecodeSEAux : Nat → List Nat → List Nat
  | 0, _ => []
  | _, [] => []
  | Nat.succ fuel, b :: rest =>
    if b < 0x80 then b :: utf8DecodeSEAux fuel rest
    else if 0xC2 ≤ b && b ≤ 0xDF then
      match rest with
      | c :: rest2 =>
        if isCont c then ((b - 0xC0) * 64 + (c - 0x80)) :: utf8DecodeSEAux fuel rest2
        else sesc b :: utf8DecodeSEAux fuel rest
      | [] => [sesc b]
    else if 0xE0 ≤ b && b ≤ 0xEF then
      match rest with
      | c :: c2 :: rest3 =>
        if cont3ok b c && isCont c2 then
          ((b - 0xE0) * 4096 + (c - 0x80) * 64 + (c2 - 0x80)) :: utf8DecodeSEAux fuel rest3
        else sesc b :: utf8DecodeSEAux fuel rest
      | _ => sesc b :: utf8DecodeSEAux fuel rest
    else if 0xF0 ≤ b && b ≤ 0xF4 then
      match rest with
      | c :: c2 :: c3 :: rest4 =>
        if cont4ok b c && isCont c2 && isCont c3 then
          ((b - 0xF0) * 262144 + (c - 0x80) * 4096 + (c2 - 0x80) * 64 + (c3 - 0x80)) ::
            utf8DecodeSEAux fuel rest4
        else sesc b :: utf8DecodeSEAux fuel rest
      | _ => sesc b :: utf8DecodeSEAux fuel rest
    else sesc b :: utf8DecodeSEAux fuel rest

def utf8DecodeSE (l : List Nat) : List Nat :=
  utf8DecodeSEAux l.length l

/-- Split a byte list at the first occurrence of a stop byte; the stop byte
itself is consumed. -/
def splitAtByte (stop : Nat) : List Nat → List Nat × List Nat
  | [] => ([], [])
  | b :: rest =>
    if b = stop then ([], rest)
    else
      let r := splitAtByte stop rest
      (b :: r.1, r.2)

/-- The numeric value of ASCII octal digit bytes, most significant first,
exactly as the byte loop of the parser accumulates it. -/
def octalVal (ds : List Nat) : Nat :=
  ds.foldl (fun acc b => acc * 8 + (b - 0x30)) 0

/-- Read the ASCII octal mode of a tree entry up to the separating space. -/
def parseMode (l : List Nat) : Nat × List Nat :=
  let r := splitAtByte 0x20 l
  (octalVal r.1, r.2)

/-- Modelled from the spec: one pass of the tree-object byte parser: octal
mode up to a space, name bytes up to a NUL, then the twenty bytes of the
binary content hash.  The result entry is (hash bytes, mode, name code
points), the name decoded with the surrogate-escape handler. -/
def treeEntriesAux : Nat → List Nat → List (List Nat × Nat × List Nat)
  | 0, _ => []
  | _, [] => []
  | Nat.succ fuel, data =>
    let m := parseMode data
    let n := splitAtByte 0 m.2
    let sha := n.2.take 20
    (sha, m.1, utf8DecodeSE n.1) :: treeEntriesAux fuel (n.2.drop 20)

def tree_entries_from_data (data : List Nat) : List (List Nat × Nat × List Nat) :=
  treeEntriesAux data.length data

/-! ## Round-trip of the config writer -/

theorem flatten_splitLinesAux (cs : List Char) :
    ∀ cur : List Char, (splitLinesAux cur cs).flatten = cur.reverse ++ cs := by
  induction cs with
  | nil =>
    intro cur
    by_cases h : cur.isEmpty
    · simp [splitLinesAux, h, List.isEmpty_iff.mp h]
    · simp [splitLinesAux, h]
  | cons c cs ih =>
    intro cur
    by_cases h : c = '\n' <;> simp [splitLinesAux, h, ih]

theorem flatten_splitLines (src : List Char) : (splitLines src).flatten = src := by
  simpa using flatten_splitLinesAux src []

/-- C1: for every config byte source that is parsed and then immediately
written back without any mutation, the bytes produced by the writer equal
the original input bytes exactly: no line is dirty, so every raw line
buffer, comments and blank lines and quoting included, is emitted
verbatim. -/
theorem config_parse_write_round_trip (src : List Char) :
    writeConfigBytes (parseConfigBytes src) = src := by
  have h : writeConfigBytes (parseConfigBytes src) = (splitLines src).flatten := by
    simp [writeConfigBytes, parseConfigBytes, List.map_map, Function.comp_def]
  rw [h, flatten_splitLines]

/-! ## Lock exclusivity -/

/-- C5: while a live writable parser holds the lock of a config file,
opening a second writable parser over the same backing file fails with the
busy error; once the first writer releases the lock at the end of its
scope, a new writable open over the same file succeeds again. -/
theorem config_lock_exclusive (st : LockState) (p : String)
    (h : lockPathOf p ∉ st.sentinels) :
    openWritableConfig st p = Except.ok ⟨lockPathOf p :: st.sentinels⟩ ∧
    openWritableConfig ⟨lockPathOf p :: st.sentinels⟩ p =
      Except.error LockError.busy ∧
    openWritableConfig (closeWritableConfig ⟨lockPathOf p :: st.sentinels⟩ p) p =
      Except.ok ⟨lockPathOf p :: st.sentinels⟩ := by
  refine ⟨?_, ?_, ?_⟩ <;>
    simp [openWritableConfig, acquire_lock, closeWritableConfig, release_lock,
      h, List.erase_cons_head]

theorem config_lock_exclusive_witness :
    openWritableConfig ⟨[]⟩ "cfg" = Except.ok ⟨[lockPathOf "cfg"]⟩ ∧
    openWritableConfig ⟨[lockPathOf "cfg"]⟩ "cfg" = Except.error LockError.busy ∧
    openWritableConfig (closeWritableConfig ⟨[lockPathOf "cfg"]⟩ "cfg") "cfg" =
      Except.ok ⟨[lockPathOf "cfg"]⟩ :=
  config_lock_exclusive ⟨[]⟩ "cfg" (by simp)

/-! ## stat mode to index mode -/

/-- C9: for every filesystem stat mode, the index mode is a regular file
with permissions 755 exactly when the owner-execute bit is set in the
input, and 644 otherwise, regardless of the other permission bits. -/
theorem stat_mode_to_index_mode_spec (m : Nat) :
    (m &&& S_IXUSR ≠ 0 → stat_mode_to_index_mode m = 0o100755) ∧
    (m &&& S_IXUSR = 0 → stat_mode_to_index_mode m = 0o100644) := by
  constructor <;> intro h <;> simp [stat_mode_to_index_mode, h] <;> decide

theorem stat_mode_to_index_mode_spec_witness :
    stat_mode_to_index_mode 0o744 = 0o100755 ∧
    stat_mode_to_index_mode 0o600 = 0o100644 :=
  ⟨(stat_mode_to_index_mode_spec 0o744).1 (by decide),
   (stat_mode_to_index_mode_spec 0o600).2 (by decide)⟩

/-! ## Merge input error -/

/-- C3: a call to the tree merge engine with more than three input tree
hashes is rejected with a value error, and the instrumented lookup trace is
empty: no object-store lookup is performed before the rejection. -/
theorem aggressive_tree_merge_too_many (odb : Nat → List TreeEntry)
    (ts : List Nat) (h : 3 < ts.length) :
    aggressive_tree_merge odb ts = (Except.error MergeError.tooManyTrees, []) := by
  rcases ts with _ | ⟨a, ts⟩
  · simp at h
  rcases ts with _ | ⟨b, ts⟩
  · simp at h
  rcases ts with _ | ⟨c, ts⟩
  · simp at h
  rcases ts with _ | ⟨d, ts⟩
  · simp at h
  rfl

theorem aggressive_tree_merge_too_many_witness :
    aggressive_tree_merge (fun _ => []) [1, 2, 3, 4, 5, 6] =
      (Except.error MergeError.tooManyTrees, []) :=
  aggressive_tree_merge_too_many (fun _ => []) [1, 2, 3, 4, 5, 6] (by decide)

/-! ## Per-path analysis of the lock-step merge walk -/

theorem stageEntry_path (p : String) (st : Nat) (c : Option (Nat × Nat)) :
    ∀ e ∈ stageEntry p st c, e.path = p := by
  cases c <;> simp [stageEntry]

theorem resolve3_path (p : String) (b o t : Option (Nat × Nat)) :
    ∀ e ∈ resolve3 p b o t, e.path = p := by
  intro e he
  unfold resolve3 at he
  split at he
  · exact stageEntry_path _ _ _ e he
  split at he
  · exact stageEntry_path _ _ _ e he
  split at he
  · exact stageEntry_path _ _ _ e he
  · rcases List.mem_append.mp he with h1 | h1
    · rcases List.mem_append.mp h1 with h2 | h2
      · exact stageEntry_path _ _ _ e h2
      · exact stageEntry_path _ _ _ e h2
    · exact stageEntry_path _ _ _ e h1

theorem mem_insertSorted (a p : String) (l : List String) :
    a ∈ insertSorted p l ↔ a = p ∨ a ∈ l := by
  induction l with
  | nil => simp [insertSorted]
  | cons q qs ih =>
    by_cases h : strLe p q
    · simp [insertSorted, h]
    · simp [insertSorted, h, ih]
      tauto

theorem nodup_insertSorted (p : String) (l : List String) (hp : p ∉ l)
    (hl : l.Nodup) : (insertSorted p l).Nodup := by
  induction l with
  | nil => simp [insertSorted]
  | cons q qs ih =>
    rcases List.nodup_cons.mp hl with ⟨hq, hqs⟩
    have hpq : p ≠ q := fun hh => hp (hh ▸ List.mem_cons_self q qs)
    have hpqs : p ∉ qs := fun hh => hp (List.mem_cons_of_mem _ hh)
    by_cases h : strLe p q
    · simp only [insertSorted, h, if_pos]
      exact List.nodup_cons.mpr ⟨by simp [hpq, hpqs], hl⟩
    · simp only [insertSorted, h, if_neg, Bool.false_eq_true, not_false_iff]
      refine List.nodup_cons.mpr ⟨?_, ih hpqs hqs⟩
      intro hq'
      rcases (mem_insertSorted q p qs).mp hq' with h2 | h2
      · exact hpq h2.symm
      · exact hq h2

theorem mem_sortPaths (a : String) (l : List String) :
    a ∈ sortPaths l ↔ a ∈ l := by
  induction l with
  | nil => simp [sortPaths]
  | cons q qs ih =>
    show a ∈ insertSorted q (sortPaths qs) ↔ _
    rw [mem_insertSorted, ih]
    simp

theorem nodup_sortPaths (l : List String) (hl : l.Nodup) :
    (sortPaths l).Nodup := by
  induction l with
  | nil => simp [sortPaths]
  | cons q qs ih =>
    rcases List.nodup_cons.mp hl with ⟨hq, hqs⟩
    show (insertSorted q (sortPaths qs)).Nodup
    exact nodup_insertSorted q _ (fun hh => hq ((mem_sortPaths q qs).mp hh)) (ih hqs)

theorem nodup_mergedPaths (trees : List (List TreeEntry)) :
    (mergedPaths trees).Nodup :=
  nodup_sortPaths _ (List.nodup_dedup _)

theorem mem_mergedPaths (trees : List (List TreeEntry)) (p : String) :
    p ∈ mergedPaths trees ↔ ∃ es ∈ trees, p ∈ treePaths es := by
  simp [mergedPaths, mem_sortPaths, List.mem_dedup, List.mem_flatten]

theorem candOf_eq_none_iff (es : List TreeEntry) (p : String) :
    candOf es p = none ↔ p ∉ treePaths es := by
  simp [candOf, treePaths, List.find?_eq_none]

theorem filter_path_flatMap (l : List String) (f : String → List IndexEntry)
    (hf : ∀ q, ∀ e ∈ f q, e.path = q) (hl : l.Nodup) (p : String) :
    (l.flatMap f).filter (fun e => e.path = p) = if p ∈ l then f p else [] := by
  induction l with
  | nil => simp
  | cons q l ih =>
    rcases List.nodup_cons.mp hl with ⟨hq, hl'⟩
    rw [List.flatMap_cons, List.filter_append, ih hl']
    by_cases hpq : q = p
    · subst hpq
      rw [if_neg hq, if_pos (List.mem_cons_self q l), List.append_nil]
      exact List.filter_eq_self.mpr (fun e he => by simp [hf q e he])
    · have hnil : (f q).filter (fun e => e.path = p) = [] :=
        List.filter_eq_nil_iff.mpr (fun e he => by simp [hf q e he, hpq])
      rw [hnil, List.nil_append]
      by_cases hp : p ∈ l
      · rw [if_pos hp, if_pos (List.mem_cons_of_mem q hp)]
      · rw [if_neg hp, if_neg (by simp [hp, Ne.symm hpq])]

theorem entriesAt_merge3 (b o t : List TreeEntry) (p : String) :
    entriesAt (Except.ok (merge3 b o t)) p =
      resolve3 p (candOf b p) (candOf o p) (candOf t p) := by
  unfold entriesAt resultEntries merge3
  rw [filter_path_flatMap _ _ (fun q e he => resolve3_path q _ _ _ e he)
    (nodup_mergedPaths _) p]
  by_cases hp : p ∈ mergedPaths [b, o, t]
  · rw [if_pos hp]
  · rw [if_neg hp]
    have habs : ∀ es ∈ [b, o, t], p ∉ treePaths es := by
      intro es hes hmem
      exact hp ((mem_mergedPaths _ p).mpr ⟨es, hes, hmem⟩)
    rw [(candOf_eq_none_iff o p).mpr (habs o (by simp)),
      (candOf_eq_none_iff t p).mpr (habs t (by simp))]
    simp [resolve3, stageEntry]

theorem aggressive_tree_merge_three (odb : Nat → List TreeEntry)
    (hb h1 h2 : Nat) :
    aggressive_tree_merge odb [hb, h1, h2] =
      (Except.ok (merge3 (odb hb) (odb h1) (odb h2)), [hb, h1, h2]) := rfl

/-- C2: in a three-way merge, a path unchanged from base on one side and
changed to a present value on the other resolves automatically to the
changed version as a single stage-0 entry, in both directions; a path
holding the same value on ours and theirs also resolves to a single
stage-0 entry with that value. -/
theorem three_way_merge_auto_resolve (odb : Nat → List TreeEntry)
    (hb ho ht : Nat) (p : String) (v : Nat × Nat) :
    (candOf (odb ho) p = candOf (odb hb) p → candOf (odb ht) p = some v →
      candOf (odb ht) p ≠ candOf (odb hb) p →
      entriesAt (aggressive_tree_merge odb [hb, ho, ht]).1 p =
        [⟨p, v.1, v.2, 0⟩]) ∧
    (candOf (odb ht) p = candOf (odb hb) p → candOf (odb ho) p = some v →
      candOf (odb ho) p ≠ candOf (odb hb) p →
      entriesAt (aggressive_tree_merge odb [hb, ho, ht]).1 p =
        [⟨p, v.1, v.2, 0⟩]) ∧
    (candOf (odb ho) p = some v → candOf (odb ht) p = some v →
      entriesAt (aggressive_tree_merge odb [hb, ho, ht]).1 p =
        [⟨p, v.1, v.2, 0⟩]) := by
  have hm : (aggressive_tree_merge odb [hb, ho, ht]).1 =
      Except.ok (merge3 (odb hb) (odb ho) (odb ht)) := rfl
  refine ⟨?_, ?_, ?_⟩ <;> intro h1 h2 <;> rw [hm, entriesAt_merge3]
  · intro h3
    have hot : candOf (odb ho) p ≠ candOf (odb ht) p := by
      rw [h1]; exact fun hh => h3 hh.symm
    rw [resolve3, if_neg hot, if_pos h1, h2]
    rfl
  · intro h3
    have hot : candOf (odb ho) p ≠ candOf (odb ht) p := by
      rw [h1]; exact fun hh => h3 hh
    rw [resolve3, if_neg hot, if_neg h3, if_pos h1, h2]
    rfl
  · rw [resolve3, if_pos (h1.trans h2.symm), h1]
    rfl

theorem three_way_merge_auto_resolve_witness :
    entriesAt (aggressive_tree_merge
      (fun h => if h = 0 then [⟨1, 33188, "basefile"⟩]
        else if h = 1 then [⟨2, 33188, "basefile"⟩]
        else [⟨1, 33188, "basefile"⟩]) [0, 1, 2]).1 "basefile" =
      [⟨"basefile", 2, 33188, 0⟩] :=
  (three_way_merge_auto_resolve
    (fun h => if h = 0 then [⟨1, 33188, "basefile"⟩]
      else if h = 1 then [⟨2, 33188, "basefile"⟩]
      else [⟨1, 33188, "basefile"⟩]) 0 1 2 "basefile" (2, 33188)).2.1
    (by decide) (by decide) (by decide)

/-- C4: in a three-way merge, a path holding the same content hash but
differing modes on ours and theirs, both differing from base, produces a
conflict: the base slot at stage 1 when present, ours at stage 2, theirs at
stage 3, and no stage-0 entry; a mode-only change on exactly one side
against an unmodified base resolves automatically to the changed mode at
stage 0, in both directions. -/
theorem three_way_merge_mode_semantics (odb : Nat → List TreeEntry)
    (hb ho ht : Nat) (p : String) (s m1 m2 : Nat) :
    (candOf (odb ho) p = some (s, m1) → candOf (odb ht) p = some (s, m2) →
      m1 ≠ m2 → candOf (odb ho) p ≠ candOf (odb hb) p →
      candOf (odb ht) p ≠ candOf (odb hb) p →
      entriesAt (aggressive_tree_merge odb [hb, ho, ht]).1 p =
        stageEntry p 1 (candOf (odb hb) p) ++ [⟨p, s, m1, 2⟩, ⟨p, s, m2, 3⟩] ∧
      ∀ e ∈ entriesAt (aggressive_tree_merge odb [hb, ho, ht]).1 p,
        e.stage ≠ 0) ∧
    (candOf (odb hb) p = some (s, m1) → candOf (odb ho) p = some (s, m2) →
      m2 ≠ m1 → candOf (odb ht) p = candOf (odb hb) p →
      entriesAt (aggressive_tree_merge odb [hb, ho, ht]).1 p =
        [⟨p, s, m2, 0⟩]) ∧
    (candOf (odb hb) p = some (s, m1) → candOf (odb ht) p = some (s, m2) →
      m2 ≠ m1 → candOf (odb ho) p = candOf (odb hb) p →
      entriesAt (aggressive_tree_merge odb [hb, ho, ht]).1 p =
        [⟨p, s, m2, 0⟩]) := by
  have hm : (aggressive_tree_merge odb [hb, ho, ht]).1 =
      Except.ok (merge3 (odb hb) (odb ho) (odb ht)) := rfl
  refine ⟨?_, ?_, ?_⟩ <;> intro h1 h2 h3 h4
  · intro h5
    have hot : candOf (odb ho) p ≠ candOf (odb ht) p := by
      intro hh
      rw [h1, h2] at hh
      exact h3 (congrArg Prod.snd (Option.some.inj hh))
    have hconf : entriesAt (aggressive_tree_merge odb [hb, ho, ht]).1 p =
        stageEntry p 1 (candOf (odb hb) p) ++ [⟨p, s, m1, 2⟩, ⟨p, s, m2, 3⟩] := by
      rw [hm, entriesAt_merge3, resolve3, if_neg hot, if_neg h4, if_neg h5,
        h1, h2]
      simp [stageEntry]
    refine ⟨hconf, ?_⟩
    intro e he
    rw [hconf] at he
    rcases List.mem_append.mp he with hh | hh
    · rcases hbc : candOf (odb hb) p with _ | w <;> rw [hbc] at hh <;>
        simp [stageEntry] at hh
      rw [hh]
      simp
    · simp only [List.mem_cons, List.not_mem_nil, or_false] at hh
      rcases hh with rfl | rfl <;> simp
  · have hot : candOf (odb ho) p ≠ candOf (odb ht) p := by
      intro hh
      rw [h2, h4, h1] at hh
      exact h3 (congrArg Prod.snd (Option.some.inj hh))
    have hob : candOf (odb ho) p ≠ candOf (odb hb) p := by
      intro hh
      rw [h2, h1] at hh
      exact h3 (congrArg Prod.snd (Option.some.inj hh))
    rw [hm, entriesAt_merge3, resolve3, if_neg hot, if_neg hob, if_pos h4, h2]
    rfl
  · have hot : candOf (odb ho) p ≠ candOf (odb ht) p := by
      intro hh
      rw [h4, h1, h2] at hh
      exact h3 (congrArg Prod.snd (Option.some.inj hh)).symm
    rw [hm, entriesAt_merge3, resolve3, if_neg hot, if_pos h4, h2]
    rfl

theorem three_way_merge_mode_semantics_witness :
    entriesAt (aggressive_tree_merge
      (fun h => if h = 0 then [⟨1, 33188, "basefile"⟩]
        else if h = 1 then [⟨1, 57344, "basefile"⟩]
        else [⟨1, 33261, "basefile"⟩]) [0, 1, 2]).1 "basefile" =
      stageEntry "basefile" 1 (some (1, 33188)) ++
        [⟨"basefile", 1, 57344, 2⟩, ⟨"basefile", 1, 33261, 3⟩] := by
  have h := ((three_way_merge_mode_semantics
    (fun h => if h = 0 then [⟨1, 33188, "basefile"⟩]
      else if h = 1 then [⟨1, 57344, "basefile"⟩]
      else [⟨1, 33261, "basefile"⟩]) 0 1 2 "basefile" 1 57344 33261).1
    (by decide) (by decide) (by decide) (by decide) (by decide)).1
  rw [h]
  rfl

/-! ## Ordered multi-map and document accumulation lemmas -/

theorem keyEq_iff (a b : String) : keyEq a b = true ↔ lowerStr a = lowerStr b := by
  simp [keyEq]

theorem keyEq_self (a : String) : keyEq a a = true := by
  simp [keyEq]

theorem keyEq_trans_left {a b : String} (h : keyEq a b = true) (c : String) :
    keyEq a c = keyEq b c := by
  rw [keyEq, keyEq, (keyEq_iff a b).mp h]

theorem sectEq_iff (a b : SectId) :
    sectEq a b = true ↔ lowerStr a.1 = lowerStr b.1 ∧ a.2 = b.2 := by
  simp [sectEq]

theorem sectEq_self (a : SectId) : sectEq a a = true := by
  simp [sectEq]

theorem sectEq_trans_left {a b : SectId} (h : sectEq a b = true) (c : SectId) :
    sectEq a c = sectEq b c := by
  rcases (sectEq_iff a b).mp h with ⟨h1, h2⟩
  rw [sectEq, sectEq, h1, h2]

theorem omdGetAll_omdAdd (m : OMD) (k v k' : String) :
    omdGetAll (omdAdd m k v) k' =
      omdGetAll m k' ++ (if keyEq k k' then [v] else []) := by
  induction m with
  | nil => simp [omdAdd, omdGetAll]
  | cons e m ih =>
    by_cases he : keyEq e.1 k
    · have hk' := keyEq_trans_left he k'
      by_cases h2 : keyEq k k' <;>
        simp [omdAdd, omdGetAll, he, hk', h2]
    · by_cases h2 : keyEq e.1 k'
      · have h3 : keyEq k k' = false := by
          cases h4 : keyEq k k'
          · rfl
          · exfalso
            apply he
            rw [keyEq_iff] at h2 h4 ⊢
            rw [h2, h4]
        simp [omdAdd, omdGetAll, he, h2, h3]
      · simp [omdAdd, omdGetAll, he, h2, ih]

theorem docGetAll_docAdd (d : Doc) (s : SectId) (k v : String) (s' : SectId)
    (k' : String) :
    docGetAll (docAdd d s k v) s' k' =
      docGetAll d s' k' ++
        (if sectEq s s' && keyEq k k' then [v] else []) := by
  induction d with
  | nil =>
    by_cases hs : sectEq s s' <;>
      simp [docAdd, docGetAll, hs, omdGetAll_omdAdd, omdGetAll]
  | cons e d ih =>
    by_cases he : sectEq e.1 s
    · have hs' := sectEq_trans_left he s'
      by_cases h2 : sectEq s s' <;>
        simp [docAdd, docGetAll, he, hs', h2, omdGetAll_omdAdd]
    · by_cases h2 : sectEq e.1 s'
      · have h3 : sectEq s s' = false := by
          cases h4 : sectEq s s'
          · rfl
          · exfalso
            apply he
            rw [sectEq_iff] at h2 h4 ⊢
            exact ⟨h2.1.trans h4.1.symm, h2.2.trans h4.2.symm⟩
        simp [docAdd, docGetAll, he, h2, h3]
      · simp [docAdd, docGetAll, he, h2, ih]

theorem docGetAll_docEnsure (d : Doc) (s s' : SectId) (k : String) :
    docGetAll (docEnsure d s) s' k = docGetAll d s' k := by
  induction d with
  | nil => simp [docEnsure, docGetAll, omdGetAll]
  | cons e d ih =>
    by_cases he : sectEq e.1 s <;> simp [docEnsure, docGetAll, he, ih]

theorem docGetAll_buildDocFrom (evs : List CfgEvent) :
    ∀ (cur : Option SectId) (d : Doc) (s : SectId) (k : String),
      docGetAll (buildDocFrom cur d evs) s k =
        docGetAll d s k ++ eventsValues cur evs s k := by
  induction evs with
  | nil => intro cur d s k; simp [buildDocFrom, eventsValues]
  | cons ev evs ih =>
    intro cur d s k
    cases ev with
    | sect n sub =>
      rw [buildDocFrom, eventsValues, ih, docGetAll_docEnsure]
    | opt k1 v =>
      cases cur with
      | none =>
        rw [buildDocFrom, eventsValues, ih]
        simp
      | some s1 =>
        rw [buildDocFrom, eventsValues, ih, docGetAll_docAdd]
        simp [List.append_assoc]

theorem docGetAll_buildDoc (d : Doc) (evs : List CfgEvent) (s : SectId)
    (k : String) :
    docGetAll (buildDoc d evs) s k =
      docGetAll d s k ++ eventsValues none evs s k :=
  docGetAll_buildDocFrom evs none d s k

/-! ## Multi-value order -/

theorem get_values_foldl_add (s : SectId) (k : String) (vs : List String) :
    ∀ d : Doc,
      get_values (vs.foldl (fun dd v => add_value dd s k v) d) s k =
        get_values d s k ++ vs := by
  induction vs with
  | nil => intro d; simp [get_values]
  | cons v vs ih =>
    intro d
    rw [List.foldl_cons, ih]
    show docGetAll (docAdd d s k v) s k ++ vs = docGetAll d s k ++ v :: vs
    rw [docGetAll_docAdd, sectEq_self, keyEq_self]
    simp

/-- C8: for every section and option, a sequence of add_value calls leaves
get_values returning all values for that option in insertion order, while
get_value returns the last value in that order. -/
theorem add_value_order_spec (d : Doc) (s : SectId) (k : String)
    (vs : List String) :
    get_values (vs.foldl (fun dd v => add_value dd s k v) d) s k =
      get_values d s k ++ vs ∧
    (vs ≠ [] →
      get_value (vs.foldl (fun dd v => add_value dd s k v) d) s k =
        vs.getLast?) := by
  refine ⟨get_values_foldl_add s k vs d, fun hvs => ?_⟩
  show (docGetAll _ s k).getLast? = vs.getLast?
  rw [show docGetAll (vs.foldl (fun dd v => add_value dd s k v) d) s k =
      get_values d s k ++ vs from get_values_foldl_add s k vs d]
  exact List.getLast?_append_of_ne_nil _ hvs

theorem add_value_order_spec_witness :
    get_values (List.foldl (fun dd v => add_value dd ("s", none) "k" v)
        ([] : Doc) ["a", "b"]) ("s", none) "k" =
      get_values ([] : Doc) ("s", none) "k" ++ ["a", "b"] ∧
    get_value (List.foldl (fun dd v => add_value dd ("s", none) "k" v)
        ([] : Doc) ["a", "b"]) ("s", none) "k" =
      (["a", "b"] : List String).getLast? :=
  ⟨(add_value_order_spec [] ("s", none) "k" ["a", "b"]).1,
   (add_value_order_spec [] ("s", none) "k" ["a", "b"]).2 (by decide)⟩

/-! ## Include resolution: cycle safety and precedence -/

theorem readLoop_nil (fs : String → Option (List CfgEvent)) (fuel : Nat)
    (st : ReadState) : readLoop fs fuel st [] = st := by
  cases fuel <;> rfl

theorem readLoop_cons_seen (fs : String → Option (List CfgEvent)) (fuel : Nat)
    (st : ReadState) (p : String) (ws : List String) (hp : p ∈ st.seen) :
    readLoop fs (fuel + 1) st (p :: ws) = readLoop fs fuel st ws := by
  simp [readLoop, hp]

theorem readLoop_cons_new (fs : String → Option (List CfgEvent)) (fuel : Nat)
    (st : ReadState) (p : String) (ws : List String) (evs : List CfgEvent)
    (hp : p ∉ st.seen) (hfs : fs p = some evs) :
    readLoop fs (fuel + 1) st (p :: ws) =
      readLoop fs fuel
        ⟨buildDoc st.doc evs, p :: st.seen, st.loaded ++ [p]⟩
        ((fileIncludes evs).map (normalizePath p) ++ ws) := by
  simp [readLoop, hp, hfs]

theorem readLoop_skip_all (fs : String → Option (List CfgEvent)) :
    ∀ (ws : List String) (fuel : Nat) (st : ReadState),
      (∀ q ∈ ws, q ∈ st.seen) → ws.length ≤ fuel →
      readLoop fs fuel st ws = st := by
  intro ws
  induction ws with
  | nil => intro fuel st _ _; exact readLoop_nil fs fuel st
  | cons q ws ih =>
    intro fuel st hseen hlen
    cases fuel with
    | zero => simp at hlen
    | succ fuel =>
      rw [readLoop_cons_seen fs fuel st q ws (hseen q (by simp))]
      exact ih fuel st (fun r hr => hseen r (by simp [hr])) (by simp at hlen; omega)

/-- The read of a source file A that includes a file B, where the includes
of B in turn lead only back to A or B: both files are parsed exactly once
and the merged document is A's events folded in first, then B's. -/
theorem readConfig_two_files (fs : String → Option (List CfgEvent))
    (pa pb : String) (evsA evsB : List CfgEvent) (lb : List String)
    (hab : pa ≠ pb)
    (hA : fs pa = some evsA) (hB : fs pb = some evsB)
    (hiA : (fileIncludes evsA).map (normalizePath pa) = [pb])
    (hiB : (fileIncludes evsB).map (normalizePath pb) = lb)
    (hlb : ∀ q ∈ lb, q = pa ∨ q = pb)
    (fuel : Nat) (hfuel : lb.length + 2 ≤ fuel) :
    readConfig fs [pa] fuel =
      ⟨buildDoc (buildDoc [] evsA) evsB, [pb, pa], [pa, pb]⟩ := by
  obtain ⟨f, rfl⟩ : ∃ f, fuel = f + 2 := ⟨fuel - 2, by omega⟩
  show readLoop fs (f + 1 + 1) ⟨[], [], []⟩ [pa] = _
  rw [readLoop_cons_new fs (f + 1) ⟨[], [], []⟩ pa [] evsA (by simp) hA, hiA]
  show readLoop fs (f + 1) ⟨buildDoc [] evsA, [pa], [pa]⟩ [pb] = _
  rw [readLoop_cons_new fs f ⟨buildDoc [] evsA, [pa], [pa]⟩ pb [] evsB
    (by simpa using Ne.symm hab) hB, hiB, List.append_nil]
  show readLoop fs f ⟨buildDoc (buildDoc [] evsA) evsB, [pb, pa], [pa, pb]⟩ lb = _
  rw [readLoop_skip_all fs lb f
    ⟨buildDoc (buildDoc [] evsA) evsB, [pb, pa], [pa, pb]⟩
    (fun q hq => by rcases hlb q hq with rfl | rfl <;> simp) (by omega)]

/-- C6: a chain of config includes forming a cycle (A includes B, B
includes back A, via relative or absolute paths normalized before cycle
detection) is read successfully: the result is the same for every
sufficient fuel, each file in the cycle is loaded exactly once, and every
value of every section of both files is visible in the merged view. -/
theorem include_cycle_safe (fs : String → Option (List CfgEvent))
    (pa pb : String) (evsA evsB : List CfgEvent)
    (hab : pa ≠ pb)
    (hA : fs pa = some evsA) (hB : fs pb = some evsB)
    (hiA : (fileIncludes evsA).map (normalizePath pa) = [pb])
    (hiB : (fileIncludes evsB).map (normalizePath pb) = [pa])
    (fuel : Nat) (hfuel : 3 ≤ fuel) :
    (readConfig fs [pa] fuel).loaded = [pa, pb] ∧
    (readConfig fs [pa] fuel).loaded.Nodup ∧
    ∀ (s : SectId) (k : String),
      docGetAll (readConfig fs [pa] fuel).doc s k =
        eventsValues none evsA s k ++ eventsValues none evsB s k := by
  have h := readConfig_two_files fs pa pb evsA evsB [pa] hab hA hB hiA hiB
    (fun q hq => by simp at hq; exact Or.inl hq) fuel (by simpa using hfuel)
  rw [h]
  refine ⟨rfl, by simp [hab], ?_⟩
  intro s k
  rw [docGetAll_buildDoc, docGetAll_buildDoc]
  simp [docGetAll]

theorem include_cycle_safe_witness :
    (readConfig
      (fun p =>
        if p = "/d/a" then
          some [CfgEvent.sect "a" none, CfgEvent.opt "value" "a",
            CfgEvent.sect "include" none, CfgEvent.opt "relative_path_b" "b"]
        else if p = "/d/b" then
          some [CfgEvent.sect "b" none, CfgEvent.opt "value" "b",
            CfgEvent.sect "include" none,
            CfgEvent.opt "absolute_cycle_b_a" "/d/a"]
        else none) ["/d/a"] 3).loaded = ["/d/a", "/d/b"] ∧
    docGetAll (readConfig
      (fun p =>
        if p = "/d/a" then
          some [CfgEvent.sect "a" none, CfgEvent.opt "value" "a",
            CfgEvent.sect "include" none, CfgEvent.opt "relative_path_b" "b"]
        else if p = "/d/b" then
          some [CfgEvent.sect "b" none, CfgEvent.opt "value" "b",
            CfgEvent.sect "include" none,
            CfgEvent.opt "absolute_cycle_b_a" "/d/a"]
        else none) ["/d/a"] 3).doc ("b", none) "value" =
      eventsValues none [CfgEvent.sect "b" none, CfgEvent.opt "value" "b",
        CfgEvent.sect "include" none, CfgEvent.opt "absolute_cycle_b_a" "/d/a"]
        ("b", none) "value" := by
  have h := include_cycle_safe
    (fun p =>
      if p = "/d/a" then
        some [CfgEvent.sect "a" none, CfgEvent.opt "value" "a",
          CfgEvent.sect "include" none, CfgEvent.opt "relative_path_b" "b"]
      else if p = "/d/b" then
        some [CfgEvent.sect "b" none, CfgEvent.opt "value" "b",
          CfgEvent.sect "include" none,
          CfgEvent.opt "absolute_cycle_b_a" "/d/a"]
      else none)
    "/d/a" "/d/b"
    [CfgEvent.sect "a" none, CfgEvent.opt "value" "a",
      CfgEvent.sect "include" none, CfgEvent.opt "relative_path_b" "b"]
    [CfgEvent.sect "b" none, CfgEvent.opt "value" "b",
      CfgEvent.sect "include" none, CfgEvent.opt "absolute_cycle_b_a" "/d/a"]
    (by decide) (by decide) (by decide) (by decide) (by decide) 3 (by decide)
  refine ⟨h.1, ?_⟩
  rw [h.2.2 ("b", none) "value"]
  decide

/-- C7: with include merging enabled, a value a file defines for a key
under an included file takes effect for scalar reads over any value the
including file itself defines for that key in its main body later than the
include directive: the scalar read returns the included value. -/
theorem include_value_precedence (fs : String → Option (List CfgEvent))
    (pa pb : String) (evsA evsB : List CfgEvent) (s : SectId)
    (k v_main v_inc : String)
    (hab : pa ≠ pb)
    (hA : fs pa = some evsA) (hB : fs pb = some evsB)
    (hiA : (fileIncludes evsA).map (normalizePath pa) = [pb])
    (hiB : (fileIncludes evsB).map (normalizePath pb) = [])
    (_hmain : v_main ∈ eventsValues none evsA s k)
    (hinc : eventsValues none evsB s k = [v_inc])
    (fuel : Nat) (hfuel : 2 ≤ fuel) :
    get_value (readConfig fs [pa] fuel).doc s k = some v_inc := by
  have h := readConfig_two_files fs pa pb evsA evsB [] hab hA hB hiA hiB
    (by simp) fuel (by simpa using hfuel)
  rw [h]
  show (docGetAll (buildDoc (buildDoc [] evsA) evsB) s k).getLast? = some v_inc
  rw [docGetAll_buildDoc, docGetAll_buildDoc, hinc,
    List.getLast?_append_of_ne_nil _ (by simp)]
  rfl

theorem include_value_precedence_witness :
    get_value (readConfig
      (fun p =>
        if p = "/d/a" then
          some [CfgEvent.sect "include" none, CfgEvent.opt "path" "b",
            CfgEvent.sect "sec" none, CfgEvent.opt "var1" "value1_main"]
        else if p = "/d/b" then
          some [CfgEvent.sect "sec" none,
            CfgEvent.opt "var1" "value1_included"]
        else none) ["/d/a"] 2).doc ("sec", none) "var1" =
      some "value1_included" :=
  include_value_precedence
    (fun p =>
      if p = "/d/a" then
        some [CfgEvent.sect "include" none, CfgEvent.opt "path" "b",
          CfgEvent.sect "sec" none, CfgEvent.opt "var1" "value1_main"]
      else if p = "/d/b" then
        some [CfgEvent.sect "sec" none, CfgEvent.opt "var1" "value1_included"]
      else none)
    "/d/a" "/d/b"
    [CfgEvent.sect "include" none, CfgEvent.opt "path" "b",
      CfgEvent.sect "sec" none, CfgEvent.opt "var1" "value1_main"]
    [CfgEvent.sect "sec" none, CfgEvent.opt "var1" "value1_included"]
    ("sec", none) "var1" "value1_main" "value1_included"
    (by decide) (by decide) (by decide) (by decide) (by decide)
    (by decide) (by decide) 2 (by decide)

/-! ## Tree entry parsing with undecodable names -/

theorem splitAtByte_append (stop : Nat) (xs ys : List Nat)
    (h : ∀ b ∈ xs, b ≠ stop) :
    splitAtByte stop (xs ++ stop :: ys) = (xs, ys) := by
  induction xs with
  | nil => simp [splitAtByte]
  | cons b xs ih =>
    have hb : b ≠ stop := h b (by simp)
    rw [List.cons_append, splitAtByte]
    simp [hb, ih (fun r hr => h r (by simp [hr]))]

theorem treeEntriesAux_nil (fuel : Nat) : treeEntriesAux fuel [] = [] := by
  cases fuel <;> rfl

theorem treeEntriesAux_single (fuel : Nat) (ds name sha : List Nat)
    (hds : ∀ b ∈ ds, b ≠ 0x20) (hname : ∀ b ∈ name, b ≠ 0)
    (hsha : sha.length = 20) :
    treeEntriesAux (fuel + 1) (ds ++ 0x20 :: (name ++ 0 :: sha)) =
      [(sha, octalVal ds, utf8DecodeSE name)] := by
  have hm : parseMode (ds ++ 0x20 :: (name ++ 0 :: sha)) =
      (octalVal ds, name ++ 0 :: sha) := by
    rw [parseMode, splitAtByte_append _ _ _ hds]
  have hn : splitAtByte 0 (name ++ 0 :: sha) = (name, sha) :=
    splitAtByte_append _ _ _ hname
  obtain ⟨b, rest, hd⟩ :
      ∃ b rest, ds ++ 0x20 :: (name ++ 0 :: sha) = b :: rest := by
    cases ds with
    | nil => exact ⟨_, _, rfl⟩
    | cons d ds => exact ⟨_, _, rfl⟩
  rw [hd, treeEntriesAux, ← hd, hm]
  simp only [hn]
  rw [List.take_of_length_le (le_of_eq hsha),
    List.drop_eq_nil_of_le (le_of_eq hsha), treeEntriesAux_nil]
  simp

/-- C10: the tree-object byte parser does not fail on an entry whose name
bytes are not valid UTF-8: for every well-formed entry encoding, the entry
is returned with its octal mode value and its twenty hash bytes intact and
the name decoded by the total surrogate-escape decoder; in particular the
undecodable byte 0x9f of the test fixture becomes the code point 0xDC9F. -/
theorem tree_entries_undecodable_name (ds name sha : List Nat)
    (hds : ∀ b ∈ ds, b ≠ 0x20) (hname : ∀ b ∈ name, b ≠ 0)
    (hsha : sha.length = 20) :
    tree_entries_from_data (ds ++ 0x20 :: (name ++ 0 :: sha)) =
      [(sha, octalVal ds, utf8DecodeSE name)] ∧
    tree_entries_from_data
        [0x31, 0x30, 0x30, 0x36, 0x34, 0x34, 0x20, 0x9f, 0x00,
          0x61, 0x61, 0x61] =
      [([0x61, 0x61, 0x61], 33188, [0xDC9F])] := by
  constructor
  · rw [tree_entries_from_data]
    have hlen : (ds ++ 0x20 :: (name ++ 0 :: sha)).length =
        (ds.length + name.length + 21) + 1 := by
      simp [hsha]
      omega
    rw [hlen]
    exact treeEntriesAux_single _ ds name sha hds hname hsha
  · decide

theorem tree_entries_undecodable_name_witness :
    tree_entries_from_data ([0x31, 0x30, 0x30, 0x36, 0x34, 0x34] ++ 0x20 ::
        ([0x9f] ++ 0 :: List.replicate 20 0x61)) =
      [(List.replicate 20 0x61, octalVal [0x31, 0x30, 0x30, 0x36, 0x34, 0x34],
        utf8DecodeSE [0x9f])] :=
  (tree_entries_undecodable_name [0x31, 0x30, 0x30, 0x36, 0x34, 0x34] [0x9f]
    (List.replicate 20 0x61) (by decide) (by decide) (by decide)).1

end GitMeta
